import Mathlib

/-!
Verification of the incremental secondary-index core of `bevy_mod_index`
(`src/index.rs`): the `IndexStorage` resource, the `Index::refresh` /
`Index::lookup` algorithm, and the unique multi-map that backs them.

Entities are opaque identifiers, modelled as `Nat`.  Logical time (bevy
change ticks) is `u32` in the source, modelled as `Nat` with explicit
wraparound modulo `2^32` where the source uses `wrapping_sub`.
-/

set_option linter.unusedSectionVars false
set_option linter.unusedVariables false

namespace BevyIdx

abbrev Entity := Nat

/-- The tick modulus: ticks are `u32`, so arithmetic wraps modulo `2^32`
(written as its numeral so that `omega` and `decide` can work with it). -/
def tickModulus : Nat := 4294967296

/-- `u32::wrapping_sub` on naturals: `(a - b) mod 2^32`. -/
def wrapSub (a b : Nat) : Nat :=
  (a + (tickModulus - b % tickModulus)) % tickModulus

/-- Modelled from the spec: bevy's `Tick::is_older_than` comparison is external
library code not present in this repository's sources.  Per spec §4.2 step 2, a
component is judged changed for a refresh exactly when its last-modified stamp
is not older than `watermark - 1`, compared by wraparound-safe age relative to
`current_time`: the age of the stamp (`current - stamp`, wrapping) is no
greater than the age of `watermark - 1` (`wrapping_sub` of one, as in the
source's `last_refresh_tick.wrapping_sub(1)`). -/
def isChanged (stamp wm cur : Nat) : Bool :=
  wrapSub cur stamp ≤ wrapSub cur (wrapSub wm 1)

/-- Association-list find, first binding wins (stands in for `HashMap::get`). -/
def assocFind {A B : Type} [DecidableEq A] : List (A × B) → A → Option B
  | [], _ => none
  | (a, b) :: t, a2 => if a = a2 then some b else assocFind t a2

/-- Association-list update-or-append (stands in for `HashMap::insert`). -/
def assocSet {A B : Type} [DecidableEq A] : List (A × B) → A → B → List (A × B)
  | [], a, b => [(a, b)]
  | (a2, b2) :: t, a, b =>
    if a2 = a then (a2, b) :: t else (a2, b2) :: assocSet t a b

/-- Modelled from the spec: the `UniqueMultiMap` data structure lives in
`crate::unique_multimap`, a module of this repository whose source file is not
under `src/`.  Per spec §4.1 it is a map from `Key` to set-of-`Entity`,
together with the reverse index `Entity → Key` required to evict an entity's
prior association in better than linear time.  Entity sets are duplicate-free
lists; the two hash maps are association lists. -/
structure UniqueMultiMap (K E : Type) where
  forward : List (K × List E)
  reverse : List (E × K)

/-- The empty unique multi-map (`Default::default()`). -/
def UniqueMultiMap.empty {K E : Type} : UniqueMultiMap K E := ⟨[], []⟩

/-- Remove entity `e` from the entity set of key `k` in the forward map,
leaving every other entry untouched. -/
def removeEntity {K E : Type} [DecidableEq K] [DecidableEq E] :
    List (K × List E) → K → E → List (K × List E)
  | [], _, _ => []
  | (k2, s) :: t, k, e =>
    (k2, if k2 = k then s.filter (fun x => decide (x ≠ e)) else s) ::
      removeEntity t k e

/-- Add entity `e` to the entity set of key `k` in the forward map, creating
the key's entry if absent and never duplicating `e`. -/
def addEntity {K E : Type} [DecidableEq K] [DecidableEq E] :
    List (K × List E) → K → E → List (K × List E)
  | [], k, e => [(k, [e])]
  | (k2, s) :: t, k, e =>
    if k2 = k then (k2, if e ∈ s then s else e :: s) :: t
    else (k2, s) :: addEntity t k e

/-- Modelled from the spec (§4.1): `get(key)` returns the possibly empty set of
entities currently associated with `key`; read-only, total. -/
def UniqueMultiMap.get {K E : Type} [DecidableEq K]
    (m : UniqueMultiMap K E) (k : K) : List E :=
  (assocFind m.forward k).getD []

/-- Modelled from the spec (§4.1): `insert(key, entity)` associates `entity`
with `key`; if `entity` was previously associated with a different key (per the
reverse index), that prior association is removed first; idempotent when the
association already holds; total. -/
def UniqueMultiMap.insert {K E : Type} [DecidableEq K] [DecidableEq E]
    (m : UniqueMultiMap K E) (k : K) (e : E) : UniqueMultiMap K E :=
  let fwd :=
    match assocFind m.reverse e with
    | some k0 => if k0 = k then m.forward else removeEntity m.forward k0 e
    | none => m.forward
  ⟨addEntity fwd k e, assocSet m.reverse e k⟩

/-- `IndexStorage<I>` from `src/index.rs`: the key→entity-set map plus the
`last_refresh_tick` watermark. -/
structure IndexStorage (K : Type) where
  map : UniqueMultiMap K Entity
  last_refresh_tick : Nat

/-- `impl Default for IndexStorage`: empty map, `last_refresh_tick = 0`. -/
def IndexStorage.start {K : Type} : IndexStorage K :=
  ⟨UniqueMultiMap.empty, 0⟩

/-- One row of the live component view iterated by `refresh`: the entity, its
current component value, and the component's last-changed tick. -/
abbrev LiveEntry (C : Type) := Entity × C × Nat

/-- `Index::refresh` from `src/index.rs`: if `last_refresh_tick >=
current_tick`, return immediately; otherwise walk the live view once,
reinserting each entity whose component is judged changed relative to
`last_refresh_tick.wrapping_sub(1)`, then set the watermark to `current_tick`.
`value` is the index definition's extraction function (`IndexInfo::value`).
`refreshStep` is the body of the scan loop: reinsert the entity when its
component is judged changed, else leave the map alone. -/
def refreshStep {K C : Type} [DecidableEq K] (value : C → K) (wm cur : Nat)
    (m : UniqueMultiMap K Entity) (ec : LiveEntry C) : UniqueMultiMap K Entity :=
  if isChanged ec.2.2 wm cur then m.insert (value ec.2.1) ec.1 else m

/-- `Index::refresh` continued: the guard and the single scan over the live
view, then the watermark update to `current_tick`. -/
def refresh {K C : Type} [DecidableEq K] (value : C → K)
    (live : List (LiveEntry C)) (cur : Nat) (s : IndexStorage K) :
    IndexStorage K :=
  if s.last_refresh_tick ≥ cur then s
  else
    { map := live.foldl (refreshStep value s.last_refresh_tick cur) s.map,
      last_refresh_tick := cur }

/-- `Index::lookup` from `src/index.rs`: refresh, then delegate to the
multi-map's `get`; returns the resulting entity set together with the updated
storage (the source mutates the borrowed storage in place). -/
def lookup {K C : Type} [DecidableEq K] (value : C → K)
    (live : List (LiveEntry C)) (cur : Nat) (k : K) (s : IndexStorage K) :
    List Entity × IndexStorage K :=
  let s2 := refresh value live cur s
  (s2.map.get k, s2)

/-- A sequence of refresh calls, each with its own live view and current tick,
threaded through the storage. -/
def runRefreshes {K C : Type} [DecidableEq K] (value : C → K)
    (calls : List (List (LiveEntry C) × Nat)) (s : IndexStorage K) :
    IndexStorage K :=
  calls.foldl (fun st c => refresh value c.1 c.2 st) s

/-- Well-formedness of the multi-map: every entity occurring in some forward
entry's set is recorded in the reverse index under that entry's key.  This is
the coherence the reverse index needs for `insert`'s eviction step to find
every stale association. -/
def UniqueMultiMap.WF {K E : Type} [DecidableEq E]
    (m : UniqueMultiMap K E) : Prop :=
  ∀ p ∈ m.forward, ∀ x ∈ p.2, assocFind m.reverse x = some p.1

section AssocLemmas

variable {A B : Type} [DecidableEq A]

theorem assocFind_set_self (l : List (A × B)) (a : A) (b : B) :
    assocFind (assocSet l a b) a = some b := by
  induction l with
  | nil => simp [assocSet, assocFind]
  | cons p t ih =>
    obtain ⟨a2, b2⟩ := p
    by_cases h : a2 = a
    · simp [assocSet, assocFind, h]
    · simp [assocSet, assocFind, h, ih]

theorem assocFind_set_other (l : List (A × B)) (a x : A) (b : B) (hx : x ≠ a) :
    assocFind (assocSet l a b) x = assocFind l x := by
  induction l with
  | nil => simp [assocSet, assocFind, Ne.symm hx]
  | cons p t ih =>
    obtain ⟨a2, b2⟩ := p
    by_cases h : a2 = a
    · subst h
      simp [assocSet, assocFind, Ne.symm hx]
    · simp [assocSet, assocFind, h, ih]

end AssocLemmas

section ForwardLemmas

variable {K E : Type} [DecidableEq K] [DecidableEq E]

/-- Membership in `get` exhibits an actual forward entry. -/
theorem get_exhibits (fwd : List (K × List E)) (k : K) (e : E)
    (h : e ∈ (assocFind fwd k).getD []) :
    ∃ s, (k, s) ∈ fwd ∧ e ∈ s := by
  induction fwd with
  | nil => simp [assocFind] at h
  | cons p t ih =>
    obtain ⟨k2, s2⟩ := p
    by_cases hk : k2 = k
    · subst hk
      simp only [assocFind, if_pos rfl, Option.getD_some] at h
      exact ⟨s2, List.mem_cons_self _ _, h⟩
    · simp only [assocFind, if_neg hk] at h
      obtain ⟨s, hs, he⟩ := ih h
      exact ⟨s, List.mem_cons_of_mem _ hs, he⟩

/-- After `addEntity fwd k e`, the entity `e` is in `k`'s set. -/
theorem addEntity_mem_self (fwd : List (K × List E)) (k : K) (e : E) :
    e ∈ (assocFind (addEntity fwd k e) k).getD [] := by
  induction fwd with
  | nil => simp [addEntity, assocFind]
  | cons p t ih =>
    obtain ⟨k2, s⟩ := p
    by_cases hk : k2 = k
    · subst hk
      by_cases he : e ∈ s <;> simp [addEntity, assocFind, he]
    · simp [addEntity, assocFind, hk, ih]

/-- `addEntity fwd k e` does not change `get` at any other key. -/
theorem addEntity_get_other (fwd : List (K × List E)) (k k2 : K) (e : E)
    (hk : k2 ≠ k) :
    assocFind (addEntity fwd k e) k2 = assocFind fwd k2 := by
  induction fwd with
  | nil => simp [addEntity, assocFind, Ne.symm hk]
  | cons p t ih =>
    obtain ⟨k3, s⟩ := p
    by_cases h3 : k3 = k
    · subst h3
      simp [addEntity, assocFind, Ne.symm hk]
    · by_cases h2 : k3 = k2
      · subst h2
        simp [addEntity, assocFind, h3]
      · simp [addEntity, assocFind, h3, h2, ih]

/-- `addEntity fwd k2 e2` does not affect membership of a different entity. -/
theorem addEntity_mem_other (fwd : List (K × List E)) (k k2 : K) (e e2 : E)
    (he : e ≠ e2) :
    e ∈ (assocFind (addEntity fwd k2 e2) k).getD [] ↔
      e ∈ (assocFind fwd k).getD [] := by
  induction fwd with
  | nil =>
    by_cases hk : k2 = k <;> simp [addEntity, assocFind, hk, he]
  | cons p t ih =>
    obtain ⟨k3, s⟩ := p
    by_cases h3 : k3 = k2
    · subst h3
      by_cases hk : k3 = k
      · subst hk
        by_cases h2 : e2 ∈ s <;> simp [addEntity, assocFind, h2, he]
      · simp [addEntity, assocFind, hk]
    · by_cases hk : k3 = k
      · subst hk
        simp [addEntity, assocFind, h3]
      · simp [addEntity, assocFind, h3, hk, ih]

/-- `removeEntity fwd k0 e2` does not affect membership of a different
entity. -/
theorem removeEntity_mem_other (fwd : List (K × List E)) (k k0 : K) (e e2 : E)
    (he : e ≠ e2) :
    e ∈ (assocFind (removeEntity fwd k0 e2) k).getD [] ↔
      e ∈ (assocFind fwd k).getD [] := by
  induction fwd with
  | nil => simp [removeEntity, assocFind]
  | cons p t ih =>
    obtain ⟨k3, s⟩ := p
    by_cases hk : k3 = k
    · subst hk
      by_cases h0 : k3 = k0 <;>
        simp [removeEntity, assocFind, h0, List.mem_filter, he]
    · by_cases h0 : k3 = k0
      · subst h0
        simpa [removeEntity, assocFind, hk] using ih
      · simpa [removeEntity, assocFind, h0, hk] using ih

/-- After `removeEntity fwd k0 e`, the entity `e` is not in `k0`'s set. -/
theorem removeEntity_not_mem_self (fwd : List (K × List E)) (k0 : K) (e : E) :
    e ∉ (assocFind (removeEntity fwd k0 e) k0).getD [] := by
  induction fwd with
  | nil => simp [removeEntity, assocFind]
  | cons p t ih =>
    obtain ⟨k3, s⟩ := p
    by_cases h0 : k3 = k0
    · subst h0
      simp [removeEntity, assocFind, List.mem_filter]
    · simpa [removeEntity, assocFind, h0] using ih

/-- `removeEntity fwd k0 e` does not change `get` at keys other than `k0`. -/
theorem removeEntity_get_other (fwd : List (K × List E)) (k k0 : K) (e : E)
    (hk : k ≠ k0) :
    assocFind (removeEntity fwd k0 e) k = assocFind fwd k := by
  induction fwd with
  | nil => simp [removeEntity, assocFind]
  | cons p t ih =>
    obtain ⟨k3, s⟩ := p
    by_cases h2 : k3 = k
    · subst h2
      simp [removeEntity, assocFind, hk, ih]
    · by_cases h0 : k3 = k0
      · subst h0
        simp [removeEntity, assocFind, Ne.symm hk, h2, ih]
      · simp [removeEntity, assocFind, h0, h2, ih]

end ForwardLemmas

section MapLemmas

variable {K E : Type} [DecidableEq K] [DecidableEq E]

/-- After `insert k e`, the entity `e` is in `k`'s set. -/
theorem insert_mem_self (m : UniqueMultiMap K E) (k : K) (e : E) :
    e ∈ (m.insert k e).get k := by
  unfold UniqueMultiMap.insert UniqueMultiMap.get
  exact addEntity_mem_self _ k e

/-- `insert k2 e2` does not affect membership of any other entity. -/
theorem insert_mem_other (m : UniqueMultiMap K E) (k k2 : K) (e e2 : E)
    (he : e ≠ e2) :
    e ∈ (m.insert k2 e2).get k ↔ e ∈ m.get k := by
  unfold UniqueMultiMap.insert UniqueMultiMap.get
  rcases h0 : assocFind m.reverse e2 with _ | k0
  · simp only [h0]
    exact addEntity_mem_other _ _ _ _ _ he
  · by_cases hk0 : k0 = k2
    · simp only [h0, if_pos hk0]
      exact addEntity_mem_other _ _ _ _ _ he
    · simp only [h0, if_neg hk0]
      rw [addEntity_mem_other _ _ _ _ _ he, removeEntity_mem_other _ _ _ _ _ he]

/-- On a well-formed map, after `insert k e` the entity `e` is in the set of
`k` and of no other key: the eviction step removed the prior association. -/
theorem mem_insert_iff (m : UniqueMultiMap K E) (hwf : m.WF) (k k2 : K)
    (e : E) : e ∈ (m.insert k e).get k2 ↔ k2 = k := by
  constructor
  · intro h
    by_contra hne
    unfold UniqueMultiMap.insert UniqueMultiMap.get at h
    rcases h0 : assocFind m.reverse e with _ | k0
    · simp only [h0] at h
      rw [addEntity_get_other _ _ _ _ hne] at h
      obtain ⟨s, hs, hes⟩ := get_exhibits _ _ _ h
      have := hwf (k2, s) hs e hes
      rw [h0] at this
      cases this
    · by_cases hk0 : k0 = k
      · simp only [h0, if_pos hk0] at h
        rw [addEntity_get_other _ _ _ _ hne] at h
        obtain ⟨s, hs, hes⟩ := get_exhibits _ _ _ h
        have := hwf (k2, s) hs e hes
        rw [h0] at this
        have h2 : k0 = k2 := Option.some.inj this
        exact hne (h2 ▸ hk0)
      · simp only [h0, if_neg hk0] at h
        rw [addEntity_get_other _ _ _ _ hne] at h
        by_cases hk2 : k2 = k0
        · subst hk2
          exact removeEntity_not_mem_self m.forward k2 e h
        · rw [removeEntity_get_other _ _ _ _ hk2] at h
          obtain ⟨s, hs, hes⟩ := get_exhibits _ _ _ h
          have := hwf (k2, s) hs e hes
          rw [h0] at this
          have h2 : k0 = k2 := Option.some.inj this
          exact hk2 h2.symm
  · intro h
    subst h
    exact insert_mem_self m _ e

/-- Every (entity, key-of-entry) pair after `addEntity` is either the freshly
added pair or comes from an entry of the original forward map. -/
theorem addEntity_sets (fwd : List (K × List E)) (k : K) (e : E) :
    ∀ p ∈ addEntity fwd k e, ∀ x ∈ p.2,
      (x = e ∧ p.1 = k) ∨ ∃ q ∈ fwd, q.1 = p.1 ∧ x ∈ q.2 := by
  induction fwd with
  | nil =>
    intro p hp x hx
    simp only [addEntity, List.mem_singleton] at hp
    subst hp
    simp only [List.mem_singleton] at hx
    exact Or.inl ⟨hx, rfl⟩
  | cons hd t ih =>
    obtain ⟨k2, s⟩ := hd
    intro p hp x hx
    by_cases hk : k2 = k
    · subst hk
      simp only [addEntity, if_pos rfl] at hp
      rcases List.mem_cons.mp hp with h | h
      · subst h
        simp only at hx
        by_cases hes : e ∈ s
        · exact Or.inr ⟨(k2, s), List.mem_cons_self _ _, rfl, by simpa [hes] using hx⟩
        · rcases (by simpa [hes] using hx : x = e ∨ x ∈ s) with h2 | h2
          · exact Or.inl ⟨h2, rfl⟩
          · exact Or.inr ⟨(k2, s), List.mem_cons_self _ _, rfl, h2⟩
      · exact Or.inr ⟨p, List.mem_cons_of_mem _ h, rfl, hx⟩
    · simp only [addEntity, if_neg hk] at hp
      rcases List.mem_cons.mp hp with h | h
      · subst h
        exact Or.inr ⟨(k2, s), List.mem_cons_self _ _, rfl, hx⟩
      · rcases ih p h x hx with h2 | ⟨q, hq, h3, h4⟩
        · exact Or.inl h2
        · exact Or.inr ⟨q, List.mem_cons_of_mem _ hq, h3, h4⟩

/-- Every entry after `removeEntity` shrinks an entry of the original forward
map with the same key, and entries keyed `k0` no longer contain `e`. -/
theorem removeEntity_sets (fwd : List (K × List E)) (k0 : K) (e : E) :
    ∀ p ∈ removeEntity fwd k0 e, ∃ q ∈ fwd, q.1 = p.1 ∧
      (∀ x ∈ p.2, x ∈ q.2) ∧ (p.1 = k0 → e ∉ p.2) := by
  induction fwd with
  | nil =>
    intro p hp
    simp [removeEntity] at hp
  | cons hd t ih =>
    obtain ⟨k2, s⟩ := hd
    intro p hp
    rcases List.mem_cons.mp hp with h | h
    · subst h
      refine ⟨(k2, s), List.mem_cons_self _ _, rfl, ?_, ?_⟩
      · intro x hx
        by_cases hk : k2 = k0
        · rw [if_pos hk] at hx
          exact (List.mem_filter.mp hx).1
        · rwa [if_neg hk] at hx
      · intro hpk
        simp only at hpk
        simp [hpk, List.mem_filter]
    · obtain ⟨q, hq, h1, h2, h3⟩ := ih p h
      exact ⟨q, List.mem_cons_of_mem _ hq, h1, h2, h3⟩

/-- The empty map is well-formed. -/
theorem WF_empty : (UniqueMultiMap.empty : UniqueMultiMap K E).WF := by
  intro p hp
  simp [UniqueMultiMap.empty] at hp

/-- `insert` preserves well-formedness. -/
theorem WF_insert (m : UniqueMultiMap K E) (hwf : m.WF) (k : K) (e : E) :
    (m.insert k e).WF := by
  intro p hp x hx
  unfold UniqueMultiMap.insert at hp ⊢
  rcases h0 : assocFind m.reverse e with _ | k0
  · simp only [h0] at hp
    rcases addEntity_sets m.forward k e p hp x hx with ⟨hxe, hpk⟩ | ⟨q, hq, hqp, hxq⟩
    · subst hxe
      rw [hpk]
      exact assocFind_set_self _ _ _
    · have hrx := hwf q hq x hxq
      by_cases hxe : x = e
      · subst hxe
        rw [h0] at hrx
        cases hrx
      · simp only
        rw [assocFind_set_other _ _ _ _ hxe, hrx, hqp]
  · by_cases hk0 : k0 = k
    · simp only [h0, if_pos hk0] at hp
      rcases addEntity_sets m.forward k e p hp x hx with ⟨hxe, hpk⟩ | ⟨q, hq, hqp, hxq⟩
      · subst hxe
        rw [hpk]
        exact assocFind_set_self _ _ _
      · have hrx := hwf q hq x hxq
        by_cases hxe : x = e
        · subst hxe
          rw [h0] at hrx
          injection hrx with h2
          simp only
          rw [assocFind_set_self, ← hqp, ← h2, hk0]
        · simp only
          rw [assocFind_set_other _ _ _ _ hxe, hrx, hqp]
    · simp only [h0, if_neg hk0] at hp
      rcases addEntity_sets _ k e p hp x hx with ⟨hxe, hpk⟩ | ⟨q, hq, hqp, hxq⟩
      · subst hxe
        rw [hpk]
        exact assocFind_set_self _ _ _
      · obtain ⟨q2, hq2, hq21, hsub, hnot⟩ := removeEntity_sets m.forward k0 e q hq
        have hxq2 := hsub x hxq
        have hrx := hwf q2 hq2 x hxq2
        by_cases hxe : x = e
        · subst hxe
          rw [h0] at hrx
          have h2 : k0 = q2.1 := Option.some.inj hrx
          exact absurd hxq (hnot (by rw [← hq21, ← h2]))
        · simp only
          rw [assocFind_set_other _ _ _ _ hxe, hrx, hq21, hqp]

/-- On a well-formed map, an entity belongs to the set of at most one key. -/
theorem WF_get_unique (m : UniqueMultiMap K E) (hwf : m.WF) (e : E)
    (k1 k2 : K) (h1 : e ∈ m.get k1) (h2 : e ∈ m.get k2) : k1 = k2 := by
  obtain ⟨s1, hs1, he1⟩ := get_exhibits _ _ _ h1
  obtain ⟨s2, hs2, he2⟩ := get_exhibits _ _ _ h2
  have w1 := hwf (k1, s1) hs1 e he1
  have w2 := hwf (k2, s2) hs2 e he2
  rw [w1] at w2
  injection w2

end MapLemmas

section FoldLemmas

variable {K C : Type} [DecidableEq K]

/-- An entity no row of the scanned live view mentions keeps exactly the
associations it had before the scan. -/
theorem foldl_step_frame (value : C → K) (wm cur : Nat)
    (live : List (LiveEntry C)) (m : UniqueMultiMap K Entity) (e : Entity)
    (k : K) (h : ∀ x ∈ live, x.1 ≠ e) :
    e ∈ ((live.foldl (refreshStep value wm cur) m).get k) ↔ e ∈ m.get k := by
  induction live generalizing m with
  | nil => simp
  | cons x t ih =>
    have hx : x.1 ≠ e := h x (List.mem_cons_self _ _)
    have ht : ∀ y ∈ t, y.1 ≠ e := fun y hy => h y (List.mem_cons_of_mem _ hy)
    rw [List.foldl_cons, ih _ ht]
    unfold refreshStep
    by_cases hc : isChanged x.2.2 wm cur
    · rw [if_pos hc]
      exact insert_mem_other _ _ _ _ _ (Ne.symm hx)
    · rw [if_neg hc]

/-- `refreshStep` preserves well-formedness of the map. -/
theorem WF_step (value : C → K) (wm cur : Nat) (m : UniqueMultiMap K Entity)
    (hwf : m.WF) (ec : LiveEntry C) : (refreshStep value wm cur m ec).WF := by
  unfold refreshStep
  by_cases hc : isChanged ec.2.2 wm cur
  · rw [if_pos hc]
    exact WF_insert _ hwf _ _
  · rwa [if_neg hc]

/-- The scan preserves well-formedness of the map. -/
theorem WF_foldl (value : C → K) (wm cur : Nat) (live : List (LiveEntry C))
    (m : UniqueMultiMap K Entity) (hwf : m.WF) :
    (live.foldl (refreshStep value wm cur) m).WF := by
  induction live generalizing m with
  | nil => exact hwf
  | cons x t ih =>
    rw [List.foldl_cons]
    exact ih _ (WF_step value wm cur m hwf x)

/-- If a live row `(e, c, stamp)` is judged changed by the scan, and entity
ids in the live view are distinct, then after the scan `e` is in the set of
`value c`. -/
theorem foldl_step_mem (value : C → K) (wm cur : Nat)
    (live : List (LiveEntry C)) (m : UniqueMultiMap K Entity)
    (e : Entity) (c : C) (stamp : Nat)
    (hn : (live.map (fun x => x.1)).Nodup) (hmem : (e, c, stamp) ∈ live)
    (hc : isChanged stamp wm cur = true) :
    e ∈ (live.foldl (refreshStep value wm cur) m).get (value c) := by
  induction live generalizing m with
  | nil => cases hmem
  | cons x t ih =>
    rw [List.map_cons, List.nodup_cons] at hn
    rcases List.mem_cons.mp hmem with h | h
    · have hx1 : x.1 = e := by rw [← h]
      have ht : ∀ y ∈ t, y.1 ≠ e := by
        intro y hy hye
        exact hn.1 (hx1 ▸ hye ▸ List.mem_map_of_mem _ hy)
      rw [List.foldl_cons, foldl_step_frame value wm cur t _ e (value c) ht,
        ← h]
      unfold refreshStep
      rw [if_pos hc]
      exact insert_mem_self m (value c) e
    · have hx : x.1 ≠ e := by
        intro hx1
        exact hn.1 (hx1 ▸ List.mem_map_of_mem _ h)
      rw [List.foldl_cons]
      exact ih _ hn.2 h

/-- If a live row `(e, c, stamp)` is judged changed by the scan, and entity
ids in the live view are distinct, then after the scan over a well-formed map
`e` is in no key's set other than `value c`'s: the reinsert superseded any
stale association. -/
theorem foldl_step_not_mem (value : C → K) (wm cur : Nat)
    (live : List (LiveEntry C)) (m : UniqueMultiMap K Entity)
    (e : Entity) (c : C) (stamp : Nat) (k : K) (hwf : m.WF)
    (hn : (live.map (fun x => x.1)).Nodup) (hmem : (e, c, stamp) ∈ live)
    (hc : isChanged stamp wm cur = true) (hk : k ≠ value c) :
    e ∉ (live.foldl (refreshStep value wm cur) m).get k := by
  induction live generalizing m with
  | nil => cases hmem
  | cons x t ih =>
    rw [List.map_cons, List.nodup_cons] at hn
    rcases List.mem_cons.mp hmem with h | h
    · have hx1 : x.1 = e := by rw [← h]
      have ht : ∀ y ∈ t, y.1 ≠ e := by
        intro y hy hye
        exact hn.1 (hx1 ▸ hye ▸ List.mem_map_of_mem _ hy)
      rw [List.foldl_cons, foldl_step_frame value wm cur t _ e k ht, ← h]
      unfold refreshStep
      rw [if_pos hc]
      intro hmem2
      exact hk ((mem_insert_iff m hwf (value c) k e).mp hmem2)
    · rw [List.foldl_cons]
      exact ih _ (WF_step value wm cur m hwf x) hn.2 h

end FoldLemmas

section RefreshLemmas

variable {K C : Type} [DecidableEq K]

/-- A stale refresh replaces the map by the scan's fold and the watermark by
the current tick. -/
theorem refresh_stale (value : C → K) (live : List (LiveEntry C)) (cur : Nat)
    (s : IndexStorage K) (h : s.last_refresh_tick < cur) :
    refresh value live cur s =
      { map := live.foldl (refreshStep value s.last_refresh_tick cur) s.map,
        last_refresh_tick := cur } := by
  unfold refresh
  rw [if_neg (Nat.not_le.mpr h)]

/-- A refresh whose watermark is already at or past the current tick is the
identity on the store. -/
theorem refresh_skip (value : C → K) (live : List (LiveEntry C)) (cur : Nat)
    (s : IndexStorage K) (h : cur ≤ s.last_refresh_tick) :
    refresh value live cur s = s := by
  unfold refresh
  rw [if_pos h]

/-- The watermark after a refresh is the max of the old watermark and the
current tick. -/
theorem refresh_tick (value : C → K) (live : List (LiveEntry C)) (cur : Nat)
    (s : IndexStorage K) :
    (refresh value live cur s).last_refresh_tick =
      max s.last_refresh_tick cur := by
  by_cases h : s.last_refresh_tick ≥ cur
  · rw [refresh_skip value live cur s h]
    omega
  · rw [refresh_stale value live cur s (Nat.lt_of_not_le h)]
    show cur = max s.last_refresh_tick cur
    omega

/-- The watermark after a sequence of refreshes folds max over the ticks. -/
theorem runRefreshes_tick (value : C → K)
    (calls : List (List (LiveEntry C) × Nat)) (s : IndexStorage K) :
    (runRefreshes value calls s).last_refresh_tick =
      (calls.map (fun c => c.2)).foldl max s.last_refresh_tick := by
  induction calls generalizing s with
  | nil => rfl
  | cons c t ih =>
    show (runRefreshes value t (refresh value c.1 c.2 s)).last_refresh_tick = _
    rw [ih, List.map_cons, List.foldl_cons, refresh_tick]

/-- Refreshes preserve well-formedness of the store's map. -/
theorem WF_refresh (value : C → K) (live : List (LiveEntry C)) (cur : Nat)
    (s : IndexStorage K) (hwf : s.map.WF) : (refresh value live cur s).map.WF := by
  by_cases h : s.last_refresh_tick ≥ cur
  · rwa [refresh_skip value live cur s h]
  · rw [refresh_stale value live cur s (Nat.lt_of_not_le h)]
    exact WF_foldl _ _ _ _ _ hwf

/-- Sequences of refreshes preserve well-formedness of the store's map. -/
theorem WF_runRefreshes (value : C → K)
    (calls : List (List (LiveEntry C) × Nat)) (s : IndexStorage K)
    (hwf : s.map.WF) : (runRefreshes value calls s).map.WF := by
  induction calls generalizing s with
  | nil => exact hwf
  | cons c t ih =>
    exact ih (refresh value c.1 c.2 s) (WF_refresh value c.1 c.2 s hwf)

/-- On a fresh store (watermark 0), every component stamped strictly before
the current tick is judged changed, provided the tick has not reached the
wraparound boundary. -/
theorem isChanged_from_zero (stamp cur : Nat) (h1 : stamp < cur)
    (h2 : cur + 1 < tickModulus) : isChanged stamp 0 cur = true := by
  simp only [isChanged, wrapSub, tickModulus, decide_eq_true_eq] at *
  omega

end RefreshLemmas

section Claims

/-- C1: Lookup completeness — starting from the freshly created store, for
every entity `e` whose component `c` carries a last-modified stamp strictly
before `current_time` (inserted before the lookup's tick, below the `u32`
wraparound boundary) and whose entity id occurs once in the live view,
`lookup (value c)` at `current_time` returns a set that includes `e`. -/
theorem lookup_completeness {K C : Type} [DecidableEq K] (value : C → K)
    (live : List (LiveEntry C)) (cur : Nat) (e : Entity) (c : C) (stamp : Nat)
    (hn : (live.map (fun x => x.1)).Nodup) (hmem : (e, c, stamp) ∈ live)
    (hs : stamp < cur) (hcur : cur + 1 < tickModulus) :
    e ∈ (lookup value live cur (value c) IndexStorage.start).1 := by
  show e ∈ (refresh value live cur IndexStorage.start).map.get (value c)
  rw [refresh_stale value live cur _ (Nat.lt_of_le_of_lt (Nat.zero_le stamp) hs)]
  exact foldl_step_mem value _ cur live _ e c stamp hn hmem
    (isChanged_from_zero stamp cur hs hcur)

theorem lookup_completeness_witness :
    ((([(7, 10, 1)] : List (LiveEntry Nat)).map (fun x => x.1)).Nodup ∧
      ((7 : Entity), (10 : Nat), (1 : Nat)) ∈ ([(7, 10, 1)] : List (LiveEntry Nat)) ∧
      1 < 2 ∧ 2 + 1 < tickModulus) ∧
    7 ∈ (lookup (fun n : Nat => n) [(7, 10, 1)] 2 10 IndexStorage.start).1 :=
  ⟨⟨by decide, by decide, by decide, by decide⟩,
    lookup_completeness (fun n : Nat => n) [(7, 10, 1)] 2 7 10 1 (by decide)
      (by decide) (by decide) (by decide)⟩

/-- C2: Lookup soundness — when a refresh is stale and sees the entity's last
mutation (its row `(e, c, stamp)` is judged changed relative to the watermark,
i.e. the store is being refreshed through the entity's last mutation time),
`lookup k` for any key `k` different from the component's extracted key
`value c` does not return `e`, for any well-formed starting map and any live
view with distinct entity ids. -/
theorem lookup_soundness {K C : Type} [DecidableEq K] (value : C → K)
    (live : List (LiveEntry C)) (cur : Nat) (k : K) (s : IndexStorage K)
    (e : Entity) (c : C) (stamp : Nat) (hwf : s.map.WF)
    (hn : (live.map (fun x => x.1)).Nodup) (hmem : (e, c, stamp) ∈ live)
    (hstale : s.last_refresh_tick < cur)
    (hc : isChanged stamp s.last_refresh_tick cur = true)
    (hk : k ≠ value c) :
    e ∉ (lookup value live cur k s).1 := by
  show e ∉ (refresh value live cur s).map.get k
  rw [refresh_stale value live cur s hstale]
  exact foldl_step_not_mem value _ cur live _ e c stamp k hwf hn hmem hc hk

theorem lookup_soundness_witness :
    ((⟨⟨[(5, [7])], [(7, 5)]⟩, 1⟩ : IndexStorage Nat).map.WF ∧
      (([(7, 9, 2)] : List (LiveEntry Nat)).map (fun x => x.1)).Nodup ∧
      ((7 : Entity), (9 : Nat), (2 : Nat)) ∈ ([(7, 9, 2)] : List (LiveEntry Nat)) ∧
      (⟨⟨[(5, [7])], [(7, 5)]⟩, 1⟩ : IndexStorage Nat).last_refresh_tick < 3 ∧
      isChanged 2 1 3 = true ∧ (5 : Nat) ≠ 9) ∧
    7 ∉ (lookup (fun n : Nat => n) [(7, 9, 2)] 3 5
      (⟨⟨[(5, [7])], [(7, 5)]⟩, 1⟩ : IndexStorage Nat)).1 :=
  ⟨⟨by unfold UniqueMultiMap.WF; decide, by decide, by decide, by decide,
      by decide, by decide⟩,
    lookup_soundness (fun n : Nat => n) [(7, 9, 2)] 3 5 _ 7 9 2
      (by unfold UniqueMultiMap.WF; decide)
      (by decide) (by decide) (by decide) (by decide) (by decide)⟩

/-- C3: During a stale refresh (`watermark < current_time`), an entity is
judged changed, and hence reinserted, exactly when its component's
last-modified stamp is not older than `watermark - 1` under wraparound-safe
age comparison relative to `current_time`: the wrapping age of the stamp is at
most the wrapping age of `watermark.wrapping_sub 1`. -/
theorem refresh_changed_iff {K C : Type} [DecidableEq K] (value : C → K)
    (e : Entity) (c : C) (stamp wm cur : Nat) (hstale : wm < cur) :
    (e ∈ (refresh value [(e, c, stamp)] cur
        ⟨UniqueMultiMap.empty, wm⟩).map.get (value c)) ↔
      wrapSub cur stamp ≤ wrapSub cur (wrapSub wm 1) := by
  rw [refresh_stale value _ cur _ hstale]
  show e ∈ (refreshStep value wm cur UniqueMultiMap.empty (e, c, stamp)).get
    (value c) ↔ _
  unfold refreshStep
  by_cases hc : isChanged stamp wm cur = true
  · rw [if_pos hc]
    simp only [isChanged, decide_eq_true_eq] at hc
    simp only [hc, iff_true]
    exact insert_mem_self _ _ _
  · rw [if_neg hc]
    simp only [isChanged, decide_eq_true_eq] at hc
    simp only [hc, iff_false, UniqueMultiMap.get, UniqueMultiMap.empty,
      assocFind, Option.getD_none, List.not_mem_nil, not_false_eq_true]

theorem refresh_changed_iff_witness :
    2 < 4 ∧
      ((0 ∈ (refresh (fun n : Nat => n) [(0, 5, 3)] 4
          ⟨UniqueMultiMap.empty, 2⟩).map.get 5) ↔
        wrapSub 4 3 ≤ wrapSub 4 (wrapSub 2 1)) :=
  ⟨by decide, refresh_changed_iff (fun n : Nat => n) 0 5 3 2 4 (by decide)⟩

/-- C4: Refresh is idempotent per logical step: a second `refresh` with the
same `current_time` leaves the IndexStore (map and watermark) exactly as after
the first, because a refresh whose watermark is already `>= current_time`
returns immediately without touching the store. -/
theorem refresh_idempotent {K C : Type} [DecidableEq K] (value : C → K)
    (live : List (LiveEntry C)) (cur : Nat) (s : IndexStorage K) :
    refresh value live cur (refresh value live cur s) =
      refresh value live cur s := by
  by_cases h : s.last_refresh_tick ≥ cur
  · rw [refresh_skip value live cur s h, refresh_skip value live cur s h]
  · rw [refresh_stale value live cur s (Nat.lt_of_not_le h)]
    exact refresh_skip value live cur _ (Nat.le_refl cur)

/-- C5: Uniqueness invariant of the multi-map: after any sequence of refresh
calls from the fresh store — i.e. at every observable point between calls —
an entity belongs to the entity set of at most one key, because `insert`
first removes any prior association of the entity with a different key. -/
theorem map_uniqueness {K C : Type} [DecidableEq K] (value : C → K)
    (calls : List (List (LiveEntry C) × Nat)) (e : Entity) (k1 k2 : K)
    (h1 : e ∈ (runRefreshes value calls IndexStorage.start).map.get k1)
    (h2 : e ∈ (runRefreshes value calls IndexStorage.start).map.get k2) :
    k1 = k2 :=
  WF_get_unique _ (WF_runRefreshes value calls IndexStorage.start WF_empty)
    e k1 k2 h1 h2

theorem map_uniqueness_witness :
    (1 ∈ (runRefreshes (fun n : Nat => n) [([(1, 10, 1)], 2)]
        IndexStorage.start).map.get 10 ∧
      1 ∈ (runRefreshes (fun n : Nat => n) [([(1, 10, 1)], 2)]
        IndexStorage.start).map.get 10) ∧
    (10 : Nat) = 10 :=
  ⟨⟨by decide, by decide⟩,
    map_uniqueness (fun n : Nat => n) [([(1, 10, 1)], 2)] 1 10 10 (by decide)
      (by decide)⟩

/-- The live view of the `test_changing_with_index` scenario after startup:
entities 1 and 2 carry component 10, entity 3 carries 20, entity 4 carries
30, all stamped at the spawn tick 1. -/
def liveStart : List (LiveEntry Nat) :=
  [(1, 10, 1), (2, 10, 1), (3, 20, 1), (4, 30, 1)]

/-- The live view after the adder system, at its own tick 4, mutates the two
entities matching key 10 by adding 10 (→ 20): their stamps become 4, the tick
at which the adder's own lookup had just set the watermark. -/
def liveAfter : List (LiveEntry Nat) :=
  [(1, 20, 4), (2, 20, 4), (3, 20, 1), (4, 30, 1)]

/-- Store state after the two PreUpdate checker lookups at ticks 2 and 3. -/
def sPre : IndexStorage Nat :=
  refresh (fun n => n) liveStart 3 (refresh (fun n => n) liveStart 2 IndexStorage.start)

/-- The adder's own pre-mutation lookup of key 10 at tick 4. -/
def adderLook : List Entity × IndexStorage Nat :=
  lookup (fun n => n) liveStart 4 10 sPre

/-- The PostUpdate checker's lookup of key 10 at tick 5, after the mutation. -/
def checkLook10 : List Entity × IndexStorage Nat :=
  lookup (fun n => n) liveAfter 5 10 adderLook.2

/-- The PostUpdate checker's lookup of key 20 at tick 6, after the mutation. -/
def checkLook20 : List Entity × IndexStorage Nat :=
  lookup (fun n => n) liveAfter 6 20 checkLook10.2

/-- C6: Same-step visibility: lookups reflect mutations stamped at the very
tick the watermark last reached (the off-by-one `wrapping_sub 1`), not only
strictly earlier ticks.  In the scenario of `test_changing_with_index`, the
adder's pre-mutation lookup of key 10 sees 2 entities; it then mutates those
two entities to key 20 at its own tick 4 — the same tick its lookup set the
watermark to; the later lookups still pick the mutation up: lookup of key 20
returns 3 entities (1 original + 2 migrated) and lookup of key 10 returns 0. -/
theorem same_step_visibility :
    adderLook.1.length = 2 ∧ checkLook10.1.length = 0 ∧
      checkLook20.1.length = 3 := by decide

/-- C7: Monotonic watermark: after any sequence of refresh calls with
non-decreasing `current_time` values, starting from the fresh store, the
watermark equals the maximum `current_time` passed (each non-skipped refresh
ends by setting the watermark to `current_time`). -/
theorem watermark_monotonic {K C : Type} [DecidableEq K] (value : C → K)
    (calls : List (List (LiveEntry C) × Nat))
    (hchain : List.Chain' (fun a b => a.2 ≤ b.2) calls) :
    (runRefreshes value calls (IndexStorage.start : IndexStorage K)).last_refresh_tick =
      (calls.map (fun c => c.2)).foldl max 0 := by
  rw [runRefreshes_tick]
  rfl

theorem watermark_monotonic_witness :
    List.Chain' (fun a b => a.2 ≤ b.2)
      ([([], 1), ([], 2)] : List (List (LiveEntry Nat) × Nat)) ∧
    (runRefreshes (fun n : Nat => n) [([], 1), ([], 2)]
        (IndexStorage.start : IndexStorage Nat)).last_refresh_tick =
      (([([], 1), ([], 2)] : List (List (LiveEntry Nat) × Nat)).map
        (fun c => c.2)).foldl max 0 :=
  ⟨by simp [List.chain'_cons],
    watermark_monotonic (fun n : Nat => n) [([], 1), ([], 2)]
      (by simp [List.chain'_cons])⟩

/-- C8: `lookup` is total: when no entity currently maps to the key, it
returns the empty set, never an error (the multi-map's `get` and `insert` and
the whole lookup path are total functions). -/
theorem lookup_total_empty {K C : Type} [DecidableEq K] (value : C → K)
    (live : List (LiveEntry C)) (cur : Nat) (k : K) (s : IndexStorage K)
    (h : ∀ e : Entity, e ∉ (refresh value live cur s).map.get k) :
    (lookup value live cur k s).1 = [] := by
  show (refresh value live cur s).map.get k = []
  exact List.eq_nil_iff_forall_not_mem.mpr h

theorem lookup_total_empty_witness :
    (∀ e : Entity,
      e ∉ (refresh (fun n : Nat => n) [] 0 IndexStorage.start).map.get 7) ∧
    (lookup (fun n : Nat => n) [] 0 7 IndexStorage.start).1 = [] :=
  ⟨fun e => List.not_mem_nil e,
    lookup_total_empty (fun n : Nat => n) [] 0 7 IndexStorage.start
      (fun e => List.not_mem_nil e)⟩

/-- C9: No removal on deletion: a refresh leaves unchanged every association
of an entity that is absent from the live view entirely — entities that
vanished from the host store are never pruned from the map. -/
theorem refresh_no_removal {K C : Type} [DecidableEq K] (value : C → K)
    (live : List (LiveEntry C)) (cur : Nat) (s : IndexStorage K) (e : Entity)
    (habs : ∀ c stamp, (e, c, stamp) ∉ live) (k : K) :
    e ∈ (refresh value live cur s).map.get k ↔ e ∈ s.map.get k := by
  by_cases h : s.last_refresh_tick ≥ cur
  · rw [refresh_skip value live cur s h]
  · rw [refresh_stale value live cur s (Nat.lt_of_not_le h)]
    refine foldl_step_frame value _ cur live s.map e k ?_
    intro x hx hxe
    exact habs x.2.1 x.2.2 (by rw [← hxe]; exact hx)

theorem refresh_no_removal_witness :
    (∀ c stamp, ((7 : Entity), c, stamp) ∉ ([(3, 9, 2)] : List (LiveEntry Nat))) ∧
    (7 ∈ (refresh (fun n : Nat => n) [(3, 9, 2)] 3
        (⟨⟨[(5, [7])], [(7, 5)]⟩, 1⟩ : IndexStorage Nat)).map.get 5 ↔
      7 ∈ (⟨⟨[(5, [7])], [(7, 5)]⟩, 1⟩ : IndexStorage Nat).map.get 5) := by
  have habs : ∀ c stamp, ((7 : Entity), c, stamp) ∉
      ([(3, 9, 2)] : List (LiveEntry Nat)) := by
    intro c stamp h
    simp [Prod.ext_iff] at h
  exact ⟨habs,
    refresh_no_removal (fun n : Nat => n) [(3, 9, 2)] 3 _ 7 habs 5⟩

/-- C10: At the initial tick, the fresh store has watermark 0, and because
the refresh guard skips whenever `watermark >= current_time`, a lookup at
`current_time = 0` performs no scan and no insertion: it returns the empty
set and leaves the store untouched, regardless of the live view. -/
theorem initial_tick_lookup_empty {K C : Type} [DecidableEq K] (value : C → K)
    (live : List (LiveEntry C)) (k : K) :
    (IndexStorage.start : IndexStorage K).last_refresh_tick = 0 ∧
      lookup value live 0 k IndexStorage.start = ([], IndexStorage.start) :=
  ⟨rfl, rfl⟩

end Claims

end BevyIdx
